import Mathlib

/-!
Verification development for the trail-recommendation pipeline in
`src/cleaning.py` (corpus builder, topic-table construction, feature
fusion and the similarity engine).

Conventions of the shallow embedding:
* pandas dataframes become Lean lists (row order = list order); an index
  becomes an explicit key column or a list of names;
* float arithmetic is embedded as exact arithmetic over `ℚ`; the cosine
  similarity value `d / sqrt m` is represented by the pair `(d, m) : ℚ × ℚ`
  together with the order `scoreLt`, whose agreement with the real-valued
  cosine order is proved in `scoreLt_iff_val`;
* fallible lookups (`pandas .loc`, `np.where(...)[0][0]`,
  `hike_url_dict[...]`) return `Except LookupErr`, distinguishing a pandas
  `KeyError` (which names the missing key) from a numpy out-of-range
  `IndexError`;
* `np.argsort` is embedded as a stable ascending argsort (`argsortAsc`).
  numpy's default introsort is documented unstable in general, but for
  arrays of fewer than 16 elements it degenerates to its (stable) insertion
  sort, which is what the explicit tie-break in `idxRel` encodes. The sort
  runs over the whole similarity row / score column, so the pinned tie
  order speaks for the program only in that under-16 regime: every concrete
  state below stays inside it, the one statement about tie order
  (`C6_tie_order`) carries the length bound as a hypothesis, and the other
  ranking statements (lengths, permutation, descending scores, positional
  slicing, seed exclusion under a strict unique maximum) are invariant to
  how ties are ordered.
-/

namespace TrailRec

/-- Decidable equality for `Except`, so that concrete runs of the fallible
query functions can be evaluated by `decide`. -/
instance {ε α : Type} [DecidableEq ε] [DecidableEq α] : DecidableEq (Except ε α) := fun a b =>
  match a, b with
  | .ok x, .ok y =>
      if h : x = y then .isTrue (by rw [h]) else .isFalse (by intro hc; cases hc; exact h rfl)
  | .error x, .error y =>
      if h : x = y then .isTrue (by rw [h]) else .isFalse (by intro hc; cases hc; exact h rfl)
  | .ok _, .error _ => .isFalse (by intro hc; cases hc)
  | .error _, .ok _ => .isFalse (by intro hc; cases hc)

/-! ## Raw records and the Corpus Builder (`clean_df`, `get_review_corpus`, `make_corpus_df`) -/

/-- One raw scraped trail record (one row of `df_mongo` after the `_id` drop).
`reviews` is the review container: a dict (association list) whose list-typed
values hold the review body at position 2; `none` models a null container. -/
structure RawRecord where
  name : String
  url : String
  tags : String
  main_description : String
  secondary_description : String
  reviews : Option (List (String × List String))

/-- Helper for `dropDupByUrl`: keep rows whose url was not seen before. -/
def dropDupByUrlAux (seen : List String) : List RawRecord → List RawRecord
  | [] => []
  | r :: rs =>
    if seen.contains r.url then dropDupByUrlAux seen rs
    else r :: dropDupByUrlAux (r.url :: seen) rs

/-- `raw_df.drop_duplicates(subset='url')`: keep the first record for each url. -/
def dropDupByUrl (rs : List RawRecord) : List RawRecord := dropDupByUrlAux [] rs

/-- One disambiguation pass
`index.where(~index.duplicated(), index + sfx)`: position `i` receives the
suffix iff some earlier position holds the same name. -/
def suffixPass (ns : List String) (sfx : String) : List String :=
  (List.range ns.length).map
    (fun i => if (ns.take i).contains (ns.getD i "") then ns.getD i "" ++ sfx else ns.getD i "")

/-- `clean_df`: deduplicate by url, index by name, then exactly three fixed
suffix passes with `_2`, `_3`, `_4` (lines 33-37 of the source). -/
def clean_df (rs : List RawRecord) : List (String × RawRecord) :=
  let dd := dropDupByUrl rs
  (suffixPass (suffixPass (suffixPass (dd.map (·.name)) "_2") "_3") "_4").zip dd

/-- The disambiguated index produced by `clean_df`. -/
def clean_df_keys (rs : List RawRecord) : List String := (clean_df rs).map (·.1)

/-- `v[2].strip().replace('\n', ' ').replace('\r', ' ')` applied to one review body. -/
def normalizeReview (s : String) : String :=
  ((s.trim).replace "\n" " ").replace "\r" " "

/-- The document contributed by one record's review container: empty for a null
container, otherwise the concatenation of the (list-typed) entries' bodies,
each followed by a space (`get_review_corpus`'s inner loop). -/
def reviewDoc : Option (List (String × List String)) → String
  | none => ""
  | some es => es.foldl (fun acc kv => acc ++ normalizeReview (kv.2.getD 2 "") ++ " ") ""

/-- `get_review_corpus`: one review document per input row, in row order. -/
def get_review_corpus (rs : List RawRecord) : List String :=
  rs.map (fun r => reviewDoc r.reviews)

/-- `make_corpus_df`'s `'all'` column: tags, main description, secondary
description and review string joined by single spaces, one row per input row. -/
def make_corpus_df (rs : List RawRecord) : List String :=
  (rs.zip (get_review_corpus rs)).map
    (fun p => p.1.tags ++ " " ++ p.1.main_description ++ " " ++ p.1.secondary_description ++ " " ++ p.2)

/-- The corpus table as wired in `__main__` (line 229): `make_corpus_df` is
applied to `df_mongo`, the raw table — not to `df_clean`, because
`drop_duplicates` inside `clean_df` rebinds a local name only and `df_clean`
is never used downstream. -/
def pipeline_corpus (rs : List RawRecord) : List String := make_corpus_df rs

/-! ## Rounding and the topic tables (`nmf_topic_modeling`) -/

/-- `np.round`'s round-half-to-even on a rational, as an integer. -/
def roundHalfEvenInt (x : ℚ) : ℤ :=
  let f := ⌊x⌋
  let frac := x - f
  if frac < 1 / 2 then f
  else if 1 / 2 < frac then f + 1
  else if 2 ∣ f then f else f + 1

/-- `np.round(x, 2)`: round half-to-even at two decimal places. -/
def round2 (x : ℚ) : ℚ := (roundHalfEvenInt (x * 100) : ℚ) / 100

/-- The loadings stored in `W_df`: `pd.DataFrame(W.round(2), ...)` — every
entry of the document-topic matrix rounded to two decimals. -/
def wdfLoadings (W : List (List ℚ)) : List (List ℚ) := W.map (fun row => row.map round2)

/-- `W_df` as a keyed table: corpus index zipped with the rounded loadings. -/
def wdfTable (names : List String) (W : List (List ℚ)) : List (String × List ℚ) :=
  names.zip (wdfLoadings W)

/-- `np.argmax` over one row: first index attaining the maximum. -/
def argmaxIdx (row : List ℚ) : ℕ :=
  (List.range row.length).foldl (fun best j => if row.getD best 0 < row.getD j 0 then j else best) 0

/-- Modelled from the spec: `document_topics` (imported from
`src.nlp_pipeline`, which is not under `src/`) computes, for each document,
the majority topic as the argmax column of its row in the document-topic
matrix (0-indexed; the caller adds 1). -/
def document_topics (W : List (List ℚ)) : List ℕ := W.map argmaxIdx

/-- The `majority_topic` column of `W_df`: `document_topics(W)` then `+= 1`
(lines 133-134 of the source), i.e. the 1-indexed labels. -/
def majorityTopicCol (W : List (List ℚ)) : List ℕ := (document_topics W).map (· + 1)

/-! ## Feature Fusion (`__main__` line 240) -/

/-- `df_hike.merge(W_df, left_index=True, right_index=True)`: inner join by
key, left row order, first match on the right (keys are unique post-indexing). -/
def mergeFusion (hike : List (String × List ℚ)) (wdf : List (String × List ℚ)) :
    List (String × (List ℚ × List ℚ)) :=
  hike.filterMap (fun p =>
    match wdf.lookup p.1 with
    | some w => some (p.1, (p.2, w))
    | none => none)

/-- The fused table of `__main__` line 240: the hike attributes joined with
`wdfTable names W` — the *rounded* loadings, since that is what `W_df` holds. -/
def fusedTable (hike : List (String × List ℚ)) (names : List String) (W : List (List ℚ)) :
    List (String × (List ℚ × List ℚ)) :=
  mergeFusion hike (wdfTable names W)

/-- The trails lost by the inner join: keys present in exactly one of the two
tables. -/
def droppedTrails (hike : List (String × List ℚ)) (wdf : List (String × List ℚ)) : List String :=
  (hike.map (·.1)).filter (fun nm => (wdf.lookup nm).isNone) ++
    (wdf.map (·.1)).filter (fun nm => (hike.lookup nm).isNone)

/-- The warning-level events emitted by the fusion step. The source's
`__main__` performs the merge with no logging or warning construct of any
kind, so the emitted event list is empty whatever the inputs. -/
def fusionEvents (_hike : List (String × List ℚ)) (_wdf : List (String × List ℚ)) : List String :=
  []

/-! ## The Similarity Engine state and lookups -/

/-- How a lookup fails: a pandas `KeyError` (naming the missing key) versus a
numpy `IndexError` (an out-of-range access carrying no entity name). -/
inductive LookupErr : Type
  | keyError (nm : String)
  | indexError
deriving DecidableEq

/-- The loaded pipeline state read by the recommendation functions:
`df_merged.index` (`names`), `hike_url_dict` (`urls`), `similarity_df`
(`sim`, row-aligned with `names`) and the scaled feature matrix `X`. -/
structure RecState where
  names : List String
  urls : List (String × String)
  sim : List (List ℚ)
  X : List (List ℚ)

/-- First index of `x` in `l`, if any. -/
def firstIdxFrom : List String → String → Option ℕ
  | [], _ => none
  | a :: t, x => if a = x then some 0 else (firstIdxFrom t x).map (· + 1)

/-- `similarity_df.loc[name]`'s row lookup: a missing label raises
`KeyError(name)`. -/
def locIdx (names : List String) (nm : String) : Except LookupErr ℕ :=
  match firstIdxFrom names nm with
  | some i => .ok i
  | none => .error (.keyError nm)

/-- `np.where(hikes == x)[0][0]`: first matching position; on no match the
`[0]` on an empty array raises `IndexError` — no entity name is reported. -/
def npWhereFirst (hikes : List String) (x : String) : Except LookupErr ℕ :=
  match firstIdxFrom hikes x with
  | some j => .ok j
  | none => .error .indexError

/-- `hike_url_dict[nm]`: dict access, `KeyError(nm)` when absent. -/
def lookupUrl (st : RecState) (nm : String) : Except LookupErr String :=
  match st.urls.lookup nm with
  | some u => .ok u
  | none => .error (.keyError nm)

/-! ## Vector arithmetic and the exact cosine order -/

/-- Dot product of two rational vectors. -/
def dot (u v : List ℚ) : ℚ := (u.zipWith (· * ·) v).sum

/-- Squared euclidean norm. -/
def sqNorm (v : List ℚ) : ℚ := dot v v

/-- Elementwise vector addition (`numpy +=`). -/
def vecAdd (u v : List ℚ) : List ℚ := u.zipWith (· + ·) v

/-- `X.shape[1]`: the feature dimensionality. -/
def xdim (st : RecState) : ℕ := (st.X.headD []).length

/-- The cosine-similarity score of row `j` against a profile `p` is
represented exactly by the pair `(dot X_j p, sqNorm X_j * sqNorm p)`,
standing for `d / sqrt m` (and for `0` when `m = 0`, matching sklearn's
zero-norm handling in `normalize`). -/
def userScores (st : RecState) (p : List ℚ) : List (ℚ × ℚ) :=
  st.X.map (fun row => (dot row p, sqNorm row * sqNorm p))

/-- Invariant of score pairs produced by `userScores`: the squared-norm
product is nonnegative, and a zero norm forces a zero dot product. -/
def ScoreInv (s : ℚ × ℚ) : Prop := 0 ≤ s.2 ∧ (s.2 = 0 → s.1 = 0)

/-- Strict order on score pairs, agreeing with the order of the real values
`d / sqrt m` they represent (`scoreLt_iff_val`): decidable, by comparing
signs and then squares. -/
def scoreLt (a b : ℚ × ℚ) : Prop :=
  if a.2 = 0 then 0 < b.1 ∧ b.2 ≠ 0
  else if b.2 = 0 then a.1 < 0
  else (a.1 < 0 ∧ 0 ≤ b.1) ∨ (a.1 < 0 ∧ b.1 < 0 ∧ b.1 ^ 2 * a.2 < a.1 ^ 2 * b.2) ∨
    (0 ≤ a.1 ∧ 0 < b.1 ∧ a.1 ^ 2 * b.2 < b.1 ^ 2 * a.2)

instance : DecidableRel scoreLt := fun a b => by unfold scoreLt; infer_instance

/-- The real value a score pair stands for. -/
noncomputable def scoreVal (s : ℚ × ℚ) : ℝ :=
  if s.2 = 0 then 0 else (s.1 : ℝ) / Real.sqrt (s.2 : ℝ)

/-- sklearn's `cosine_similarity` of two rational rows: both rows are
l2-normalized (a zero-norm row is left unchanged, per
`sklearn.preprocessing.normalize`) and then dotted. -/
noncomputable def cosineSim (u v : List ℚ) : ℝ :=
  if sqNorm u = 0 ∨ sqNorm v = 0 then 0
  else (dot u v : ℝ) / (Real.sqrt (sqNorm u : ℝ) * Real.sqrt (sqNorm v : ℝ))

/-- The strict order on rationals, named so ranking statements can refer to it. -/
def ratLt : ℚ → ℚ → Prop := (· < ·)

instance : DecidableRel ratLt := fun a b => by unfold ratLt; infer_instance

/-! ## Stable argsort and the rankings -/

/-- Order on positions of `xs` for a stable ascending argsort: by value via
`lt`, ties by position. -/
def idxRel {α : Type} (lt : α → α → Prop) (d : α) (xs : List α) (i j : ℕ) : Prop :=
  lt (xs.getD i d) (xs.getD j d) ∨
    (¬ lt (xs.getD i d) (xs.getD j d) ∧ ¬ lt (xs.getD j d) (xs.getD i d) ∧ i ≤ j)

instance {α : Type} (lt : α → α → Prop) [DecidableRel lt] (d : α) (xs : List α) :
    DecidableRel (idxRel lt d xs) := fun i j => by unfold idxRel; infer_instance

/-- `np.argsort(xs)` as a stable ascending argsort. -/
def argsortAsc {α : Type} (lt : α → α → Prop) [DecidableRel lt] (d : α) (xs : List α) : List ℕ :=
  (List.range xs.length).insertionSort (idxRel lt d xs)

/-- `np.argsort(xs)[::-1]`: the descending ranking used by both
recommendation modes. -/
def descRanking {α : Type} (lt : α → α → Prop) [DecidableRel lt] (d : α) (xs : List α) : List ℕ :=
  (argsortAsc lt d xs).reverse

/-! ## The two recommendation queries -/

/-- `get_hike_recommendations(baseline_hike, n_hikes)`: look up the seed's
similarity row (`.loc`), argsort it, reverse, slice `[1 : n+1]`, and emit the
named recommendations with their urls. -/
def get_hike_recommendations (st : RecState) (baseline : String) (n : ℕ) :
    Except LookupErr (List (String × String)) := do
  let i ← locIdx st.names baseline
  let row := st.sim.getD i []
  let ranked := ((descRanking ratLt 0 row).drop 1).take n
  ranked.mapM (fun j => (lookupUrl st (st.names.getD j "")).map (fun u => (st.names.getD j "", u)))

/-- `_get_user_profile(items)`: start from `np.zeros(X.shape[1])` and add the
row of `X` at the first index where `hikes == item`, for each item in order. -/
def _get_user_profile (st : RecState) (items : List String) : Except LookupErr (List ℚ) :=
  items.foldlM
    (fun acc it => (npWhereFirst st.names it).map (fun idx => vecAdd acc (st.X.getD idx [])))
    (List.replicate (xdim st) 0)

/-- `get_user_recommendation(items, n)`: build the profile, score every row of
`X` against it by cosine similarity, argsort, reverse, slice
`[len(items) : n+len(items)]`, and emit the named recommendations with urls. -/
def get_user_recommendation (st : RecState) (items : List String) (n : ℕ) :
    Except LookupErr (List (String × String)) := do
  let p ← _get_user_profile st items
  let ranked := ((descRanking scoreLt (0, 0) (userScores st p)).drop items.length).take n
  ranked.mapM (fun j => (lookupUrl st (st.names.getD j "")).map (fun u => (st.names.getD j "", u)))

/-- Follows the spec's words (§4.5): the profile vector is the elementwise sum
of the scaled feature vectors of the liked trails. -/
def profileVectorSpec (st : RecState) (items : List String) : List ℚ :=
  (items.map (fun nm => st.X.getD ((firstIdxFrom st.names nm).getD 0) [])).foldl vecAdd
    (List.replicate (xdim st) 0)

/-- Well-formedness of a loaded state: unique index, square row-aligned
similarity matrix, row-aligned feature matrix of constant width, and a url
for every indexed trail. -/
def WellFormed (st : RecState) : Prop :=
  st.names.Nodup ∧ st.sim.length = st.names.length ∧
    (∀ r ∈ st.sim, r.length = st.names.length) ∧ st.X.length = st.names.length ∧
    (∀ r ∈ st.X, r.length = xdim st) ∧ ∀ nm ∈ st.names, (st.urls.lookup nm).isSome

/-! ## Basic lemmas about the embedding's building blocks -/

lemma except_bind_ok {ε α β : Type} (a : α) (f : α → Except ε β) :
    (Except.ok a >>= f : Except ε β) = f a := rfl

lemma except_bind_err {ε α β : Type} (e : ε) (f : α → Except ε β) :
    (Except.error e >>= f : Except ε β) = Except.error e := rfl

lemma except_map_ok {ε α β : Type} (a : α) (f : α → β) :
    ((Except.ok a : Except ε α).map f) = Except.ok (f a) := rfl

lemma except_map_err {ε α β : Type} (e : ε) (f : α → β) :
    ((Except.error e : Except ε α).map f) = (Except.error e : Except ε β) := rfl

instance (st : RecState) : Decidable (WellFormed st) := by unfold WellFormed; infer_instance

lemma getD_mem_cons {α : Type} (d : α) (xs : List α) (i : ℕ) : xs.getD i d ∈ d :: xs := by
  by_cases h : i < xs.length
  · exact List.mem_cons_of_mem _ (by rw [List.getD_eq_getElem _ _ h]; exact List.getElem_mem h)
  · rw [List.getD_eq_default _ _ (le_of_not_lt h)]; exact List.mem_cons_self _ _

/-- Running `mapM` over `Except` succeeds pointwise when every element maps to
an `ok` value, producing the pointwise results. -/
lemma mapM_except_ok {ε α β : Type} (f : α → Except ε β) (g : α → β) :
    ∀ l : List α, (∀ a ∈ l, f a = .ok (g a)) → l.mapM f = .ok (l.map g)
  | [], _ => rfl
  | a :: t, h => by
    have ht := mapM_except_ok f g t (fun x hx => h x (List.mem_cons_of_mem _ hx))
    simp only [List.mapM_cons, h a (List.mem_cons_self _ _), ht, except_bind_ok, List.map_cons]
    rfl

/-- Running `foldlM` over `Except` succeeds when every step returns `ok`,
computing the corresponding pure fold. -/
lemma foldlM_except_ok {ε α β : Type} (f : β → α → Except ε β) (g : β → α → β) :
    ∀ (l : List α) (b : β), (∀ a ∈ l, ∀ acc, f acc a = .ok (g acc a)) →
      l.foldlM f b = .ok (l.foldl g b)
  | [], b, _ => rfl
  | a :: t, b, h => by
    simp only [List.foldlM_cons, h a (List.mem_cons_self _ _) b, except_bind_ok, List.foldl_cons]
    exact foldlM_except_ok f g t (g b a) (fun x hx => h x (List.mem_cons_of_mem _ hx))

/-! ## Correctness of the stable argsort -/

lemma argsortAsc_perm {α : Type} (lt : α → α → Prop) [DecidableRel lt] (d : α) (xs : List α) :
    (argsortAsc lt d xs).Perm (List.range xs.length) :=
  List.perm_insertionSort _ _

lemma length_argsortAsc {α : Type} (lt : α → α → Prop) [DecidableRel lt] (d : α)
    (xs : List α) : (argsortAsc lt d xs).length = xs.length := by
  simpa using (argsortAsc_perm lt d xs).length_eq

lemma mem_argsortAsc {α : Type} (lt : α → α → Prop) [DecidableRel lt] (d : α) (xs : List α)
    (j : ℕ) : j ∈ argsortAsc lt d xs ↔ j < xs.length := by
  rw [(argsortAsc_perm lt d xs).mem_iff, List.mem_range]

lemma nodup_argsortAsc {α : Type} (lt : α → α → Prop) [DecidableRel lt] (d : α) (xs : List α) :
    (argsortAsc lt d xs).Nodup :=
  ((argsortAsc_perm lt d xs).symm).nodup (List.nodup_range _)

lemma descRanking_perm {α : Type} (lt : α → α → Prop) [DecidableRel lt] (d : α) (xs : List α) :
    (descRanking lt d xs).Perm (List.range xs.length) :=
  (List.reverse_perm _).trans (argsortAsc_perm lt d xs)

lemma length_descRanking {α : Type} (lt : α → α → Prop) [DecidableRel lt] (d : α)
    (xs : List α) : (descRanking lt d xs).length = xs.length := by
  simpa using (descRanking_perm lt d xs).length_eq

lemma mem_descRanking {α : Type} (lt : α → α → Prop) [DecidableRel lt] (d : α) (xs : List α)
    (j : ℕ) : j ∈ descRanking lt d xs ↔ j < xs.length := by
  rw [(descRanking_perm lt d xs).mem_iff, List.mem_range]

lemma nodup_descRanking {α : Type} (lt : α → α → Prop) [DecidableRel lt] (d : α) (xs : List α) :
    (descRanking lt d xs).Nodup :=
  ((descRanking_perm lt d xs).symm).nodup (List.nodup_range _)

/-- Transitivity of the stable-argsort position order, given that `lt` agrees
with a real-valued measure on the relevant values. -/
lemma idxRel_trans {α : Type} (lt : α → α → Prop) (d : α) (xs : List α) (V : α → ℝ)
    (hV : ∀ a b, a ∈ d :: xs → b ∈ d :: xs → (lt a b ↔ V a < V b)) :
    ∀ i j k, idxRel lt d xs i j → idxRel lt d xs j k → idxRel lt d xs i k := by
  intro i j k hij hjk
  have mi := getD_mem_cons d xs i
  have mj := getD_mem_cons d xs j
  have mk := getD_mem_cons d xs k
  simp only [idxRel, hV _ _ mi mj, hV _ _ mj mk, hV _ _ mi mk, hV _ _ mj mi, hV _ _ mk mj,
    hV _ _ mk mi, not_lt] at *
  rcases hij with h1 | ⟨h1, h1', hle1⟩ <;> rcases hjk with h2 | ⟨h2, h2', hle2⟩
  · exact Or.inl (h1.trans h2)
  · exact Or.inl (lt_of_lt_of_le h1 h2')
  · exact Or.inl (lt_of_le_of_lt h1' h2)
  · exact Or.inr ⟨le_trans h2 h1, le_trans h1' h2', le_trans hle1 hle2⟩

/-- Totality of the stable-argsort position order. -/
lemma idxRel_total {α : Type} (lt : α → α → Prop) (d : α) (xs : List α) (V : α → ℝ)
    (hV : ∀ a b, a ∈ d :: xs → b ∈ d :: xs → (lt a b ↔ V a < V b)) :
    ∀ i j, idxRel lt d xs i j ∨ idxRel lt d xs j i := by
  intro i j
  have mi := getD_mem_cons d xs i
  have mj := getD_mem_cons d xs j
  simp only [idxRel, hV _ _ mi mj, hV _ _ mj mi, not_lt]
  rcases lt_trichotomy (V (xs.getD i d)) (V (xs.getD j d)) with h | h | h
  · exact Or.inl (Or.inl h)
  · rcases le_total i j with hij | hij
    · exact Or.inl (Or.inr ⟨le_of_eq h.symm, le_of_eq h, hij⟩)
    · exact Or.inr (Or.inr ⟨le_of_eq h, le_of_eq h.symm, hij⟩)
  · exact Or.inr (Or.inl h)

/-- The stable argsort is sorted for the position order. -/
lemma sorted_argsortAsc {α : Type} (lt : α → α → Prop) [DecidableRel lt] (d : α) (xs : List α)
    (V : α → ℝ) (hV : ∀ a b, a ∈ d :: xs → b ∈ d :: xs → (lt a b ↔ V a < V b)) :
    (argsortAsc lt d xs).Sorted (idxRel lt d xs) := by
  haveI : IsTotal ℕ (idxRel lt d xs) := ⟨idxRel_total lt d xs V hV⟩
  haveI : IsTrans ℕ (idxRel lt d xs) := ⟨idxRel_trans lt d xs V hV⟩
  exact List.sorted_insertionSort _ _

/-- The reversed ranking is pairwise ordered by the flipped position order. -/
lemma pairwise_descRanking {α : Type} (lt : α → α → Prop) [DecidableRel lt] (d : α)
    (xs : List α) (V : α → ℝ)
    (hV : ∀ a b, a ∈ d :: xs → b ∈ d :: xs → (lt a b ↔ V a < V b)) :
    (descRanking lt d xs).Pairwise (fun a b => idxRel lt d xs b a) := by
  rw [descRanking, List.pairwise_reverse]
  exact sorted_argsortAsc lt d xs V hV

/-! ## Dot products, norms, and the meaning of the score order -/

lemma dot_nil_left (v : List ℚ) : dot [] v = 0 := rfl

lemma dot_nil_right (u : List ℚ) : dot u [] = 0 := by cases u <;> rfl

lemma dot_cons (a : ℚ) (u : List ℚ) (b : ℚ) (v : List ℚ) :
    dot (a :: u) (b :: v) = a * b + dot u v := by
  simp [dot]

lemma sqNorm_nonneg (v : List ℚ) : 0 ≤ sqNorm v := by
  induction v with
  | nil => exact le_refl 0
  | cons a t ih => rw [sqNorm, dot_cons]; exact add_nonneg (mul_self_nonneg a) ih

lemma sqNorm_eq_zero (v : List ℚ) (h : sqNorm v = 0) : ∀ x ∈ v, x = 0 := by
  induction v with
  | nil => intro x hx; cases hx
  | cons a t ih =>
    rw [sqNorm, dot_cons] at h
    have h' : a * a + sqNorm t = 0 := h
    have ha : a * a = 0 ∧ sqNorm t = 0 := by
      constructor <;> nlinarith [mul_self_nonneg a, sqNorm_nonneg t, h']
    intro x hx
    rcases List.mem_cons.mp hx with rfl | hx
    · exact mul_self_eq_zero.mp ha.1
    · exact ih ha.2 x hx

lemma dot_eq_zero_left (u : List ℚ) (h : ∀ x ∈ u, x = 0) : ∀ v, dot u v = 0 := by
  induction u with
  | nil => intro v; rfl
  | cons a t ih =>
    intro v
    cases v with
    | nil => exact dot_nil_right _
    | cons b w =>
      rw [dot_cons, h a (List.mem_cons_self _ _),
        ih (fun x hx => h x (List.mem_cons_of_mem _ hx)) w]
      ring

lemma dot_eq_zero_right (v : List ℚ) (h : ∀ x ∈ v, x = 0) : ∀ u, dot u v = 0 := by
  induction v with
  | nil => intro u; exact dot_nil_right u
  | cons b w ih =>
    intro u
    cases u with
    | nil => rfl
    | cons a t =>
      rw [dot_cons, h b (List.mem_cons_self _ _),
        ih (fun x hx => h x (List.mem_cons_of_mem _ hx)) t]
      ring

/-- Every score pair produced by `userScores` satisfies the score invariant. -/
lemma scoreInv_userScores (st : RecState) (p : List ℚ) :
    ∀ s ∈ userScores st p, ScoreInv s := by
  intro s hs
  rw [userScores, List.mem_map] at hs
  obtain ⟨row, -, rfl⟩ := hs
  refine ⟨mul_nonneg (sqNorm_nonneg row) (sqNorm_nonneg p), fun hz => ?_⟩
  rcases mul_eq_zero.mp hz with h | h
  · exact dot_eq_zero_left row (sqNorm_eq_zero row h) p
  · exact dot_eq_zero_right p (sqNorm_eq_zero p h) row

/-- The default score pair `(0, 0)` satisfies the invariant. -/
lemma scoreInv_default : ScoreInv ((0 : ℚ), (0 : ℚ)) := ⟨le_refl 0, fun _ => rfl⟩

/-- `scoreLt` agrees with the real-valued cosine scores it represents. -/
lemma scoreLt_iff_val (a b : ℚ × ℚ) (ha : ScoreInv a) (hb : ScoreInv b) :
    scoreLt a b ↔ scoreVal a < scoreVal b := by
  obtain ⟨ha2, _⟩ := ha
  obtain ⟨hb2, _⟩ := hb
  by_cases h1 : a.2 = 0
  · rw [scoreLt, if_pos h1, scoreVal, if_pos h1]
    by_cases h2 : b.2 = 0
    · rw [scoreVal, if_pos h2]
      simp [h2]
    · rw [scoreVal, if_neg h2]
      have hsb : (0:ℝ) < Real.sqrt (b.2 : ℝ) :=
        Real.sqrt_pos.mpr (by exact_mod_cast lt_of_le_of_ne hb2 (Ne.symm h2))
      constructor
      · rintro ⟨hb1, -⟩
        exact div_pos (by exact_mod_cast hb1) hsb
      · intro h
        refine ⟨?_, h2⟩
        have := (lt_div_iff₀ hsb).mp h
        rw [zero_mul] at this
        exact_mod_cast this
  · by_cases h2 : b.2 = 0
    · rw [scoreLt, if_neg h1, if_pos h2, scoreVal, if_neg h1, scoreVal, if_pos h2]
      have hsa : (0:ℝ) < Real.sqrt (a.2 : ℝ) :=
        Real.sqrt_pos.mpr (by exact_mod_cast lt_of_le_of_ne ha2 (Ne.symm h1))
      rw [div_lt_iff₀ hsa, zero_mul]
      exact ⟨fun h => by exact_mod_cast h, fun h => by exact_mod_cast h⟩
    · rw [scoreLt, if_neg h1, if_neg h2, scoreVal, if_neg h1, scoreVal, if_neg h2]
      have hsa : (0:ℝ) < Real.sqrt (a.2 : ℝ) :=
        Real.sqrt_pos.mpr (by exact_mod_cast lt_of_le_of_ne ha2 (Ne.symm h1))
      have hsb : (0:ℝ) < Real.sqrt (b.2 : ℝ) :=
        Real.sqrt_pos.mpr (by exact_mod_cast lt_of_le_of_ne hb2 (Ne.symm h2))
      have sqa : Real.sqrt (a.2 : ℝ) * Real.sqrt (a.2 : ℝ) = (a.2 : ℝ) :=
        Real.mul_self_sqrt (by exact_mod_cast ha2)
      have sqb : Real.sqrt (b.2 : ℝ) * Real.sqrt (b.2 : ℝ) = (b.2 : ℝ) :=
        Real.mul_self_sqrt (by exact_mod_cast hb2)
      rw [div_lt_div_iff₀ hsa hsb]
      rcases lt_or_le a.1 0 with hA1 | hA1
      · rcases lt_or_le b.1 0 with hB1 | hB1'
        · -- both numerators negative: compare squares, reversed
          have key : ((a.1 : ℝ) * Real.sqrt (b.2 : ℝ) < (b.1 : ℝ) * Real.sqrt (a.2 : ℝ)) ↔
              ((b.1 : ℝ) ^ 2 * (a.2 : ℝ) < (a.1 : ℝ) ^ 2 * (b.2 : ℝ)) := by
            have hbn : (0:ℝ) ≤ -((b.1 : ℝ) * Real.sqrt (a.2 : ℝ)) := by
              have : (b.1 : ℝ) < 0 := by exact_mod_cast hB1
              nlinarith
            have han : (0:ℝ) ≤ -((a.1 : ℝ) * Real.sqrt (b.2 : ℝ)) := by
              have : (a.1 : ℝ) < 0 := by exact_mod_cast hA1
              nlinarith
            rw [show ((a.1 : ℝ) * Real.sqrt (b.2 : ℝ) < (b.1 : ℝ) * Real.sqrt (a.2 : ℝ)) ↔
                (-((b.1 : ℝ) * Real.sqrt (a.2 : ℝ)) < -((a.1 : ℝ) * Real.sqrt (b.2 : ℝ))) from
              (neg_lt_neg_iff).symm]
            rw [mul_self_lt_mul_self_iff hbn han]
            constructor <;> intro h <;> nlinarith [sqa, sqb]
          rw [key]
          constructor
          · rintro (⟨-, hb⟩ | ⟨-, -, h⟩ | ⟨ha', -, -⟩)
            · exact absurd hb (not_le.mpr hB1)
            · exact_mod_cast h
            · exact absurd ha' (not_le.mpr hA1)
          · intro h
            exact Or.inr (Or.inl ⟨hA1, hB1, by exact_mod_cast h⟩)
        · -- left negative, right nonnegative: both sides hold
          refine iff_of_true (Or.inl ⟨hA1, hB1'⟩) ?_
          have hL : (a.1 : ℝ) * Real.sqrt (b.2 : ℝ) < 0 :=
            mul_neg_of_neg_of_pos (by exact_mod_cast hA1) hsb
          have hR : (0:ℝ) ≤ (b.1 : ℝ) * Real.sqrt (a.2 : ℝ) :=
            mul_nonneg (by exact_mod_cast hB1') hsa.le
          exact lt_of_lt_of_le hL hR
      · rcases lt_or_le 0 b.1 with hB1 | hB1
        · -- both numerators nonnegative, right strictly positive
          have key : ((a.1 : ℝ) * Real.sqrt (b.2 : ℝ) < (b.1 : ℝ) * Real.sqrt (a.2 : ℝ)) ↔
              ((a.1 : ℝ) ^ 2 * (b.2 : ℝ) < (b.1 : ℝ) ^ 2 * (a.2 : ℝ)) := by
            have hap : (0:ℝ) ≤ (a.1 : ℝ) * Real.sqrt (b.2 : ℝ) :=
              mul_nonneg (by exact_mod_cast hA1) hsb.le
            have hbp : (0:ℝ) ≤ (b.1 : ℝ) * Real.sqrt (a.2 : ℝ) :=
              mul_nonneg (by exact_mod_cast hB1.le) hsa.le
            rw [mul_self_lt_mul_self_iff hap hbp]
            constructor <;> intro h <;> nlinarith [sqa, sqb]
          rw [key]
          constructor
          · rintro (⟨ha', -⟩ | ⟨ha', -, -⟩ | ⟨-, -, h⟩)
            · exact absurd ha' (not_lt.mpr hA1)
            · exact absurd ha' (not_lt.mpr hA1)
            · exact_mod_cast h
          · intro h
            exact Or.inr (Or.inr ⟨hA1, hB1, by exact_mod_cast h⟩)
        · -- right numerator nonpositive, left nonnegative: both sides fail
          have hRf : ¬ ((a.1 : ℝ) * Real.sqrt (b.2 : ℝ) < (b.1 : ℝ) * Real.sqrt (a.2 : ℝ)) := by
            have h1' : (0:ℝ) ≤ (a.1 : ℝ) * Real.sqrt (b.2 : ℝ) :=
              mul_nonneg (by exact_mod_cast hA1) hsb.le
            have h2' : (b.1 : ℝ) * Real.sqrt (a.2 : ℝ) ≤ 0 :=
              mul_nonpos_of_nonpos_of_nonneg (by exact_mod_cast hB1) hsa.le
            exact not_lt.mpr (h2'.trans h1')
          refine iff_of_false ?_ hRf
          rintro (⟨ha', -⟩ | ⟨ha', -, -⟩ | ⟨-, hb', -⟩)
          · exact absurd ha' (not_lt.mpr hA1)
          · exact absurd ha' (not_lt.mpr hA1)
          · exact absurd hb' (not_lt.mpr hB1)

/-- The score pair built by `userScores` stands for exactly sklearn's cosine
similarity of the row against the profile. -/
lemma scoreVal_eq_cosineSim (u v : List ℚ) :
    scoreVal (dot u v, sqNorm u * sqNorm v) = cosineSim u v := by
  rw [scoreVal, cosineSim]
  by_cases h : sqNorm u = 0 ∨ sqNorm v = 0
  · rw [if_pos (by simpa [mul_eq_zero] using h), if_pos h]
  · push_neg at h
    rw [if_neg (by simp [mul_eq_zero]; tauto), if_neg (by tauto)]
    have h1 : ((sqNorm u * sqNorm v : ℚ) : ℝ) = (sqNorm u : ℝ) * (sqNorm v : ℝ) := by push_cast; ring
    rw [h1, Real.sqrt_mul (by exact_mod_cast sqNorm_nonneg u)]

/-- `ratLt` agrees with the real embedding of the rationals. -/
lemma ratLt_iff_val (a b : ℚ) : ratLt a b ↔ (a : ℝ) < (b : ℝ) := by
  rw [ratLt]; exact Rat.cast_lt.symm

/-! ## First-index lookups -/

lemma firstIdxFrom_spec :
    ∀ (l : List String) (x : String) (i : ℕ),
      firstIdxFrom l x = some i → i < l.length ∧ l.getD i "" = x := by
  intro l
  induction l with
  | nil => intro x i h; cases h
  | cons a t ih =>
    intro x i h
    rw [firstIdxFrom] at h
    by_cases hax : a = x
    · rw [if_pos hax] at h
      cases h
      exact ⟨Nat.succ_pos _, hax⟩
    · rw [if_neg hax] at h
      rcases Option.map_eq_some'.mp h with ⟨j, hj, rfl⟩
      obtain ⟨hjl, hget⟩ := ih x j hj
      exact ⟨Nat.succ_lt_succ hjl, hget⟩

lemma firstIdxFrom_eq_none (l : List String) (x : String) :
    firstIdxFrom l x = none ↔ x ∉ l := by
  induction l with
  | nil => simp [firstIdxFrom]
  | cons a t ih =>
    rw [firstIdxFrom]
    by_cases hax : a = x
    · simp [hax]
    · simp [hax, Option.map_eq_none', ih, Ne.symm hax]

lemma firstIdxFrom_of_nodup :
    ∀ (l : List String), l.Nodup → ∀ (i : ℕ) (x : String), i < l.length → l.getD i "" = x →
      firstIdxFrom l x = some i := by
  intro l
  induction l with
  | nil => intro _ i x hi; cases hi
  | cons a t ih =>
    intro hnd i x hi hget
    rcases List.nodup_cons.mp hnd with ⟨hat, hndt⟩
    cases i with
    | zero =>
      rw [List.getD_cons_zero] at hget
      rw [firstIdxFrom, if_pos hget]
    | succ j =>
      rw [List.getD_cons_succ] at hget
      have hjl : j < t.length := Nat.lt_of_succ_lt_succ hi
      have hxt : x ∈ t := by
        rw [← hget, List.getD_eq_getElem _ _ hjl]
        exact List.getElem_mem hjl
      have hax : a ≠ x := fun h => hat (h ▸ hxt)
      rw [firstIdxFrom, if_neg hax, ih hndt j x hjl hget]
      rfl

/-! ## Unfolding the two query functions under well-formedness -/

/-- The (name, url) output row printed for internal position `j`. -/
def outPair (st : RecState) (j : ℕ) : String × String :=
  (st.names.getD j "", (st.urls.lookup (st.names.getD j "")).getD "")

lemma lookupUrl_ok (st : RecState) (hurl : ∀ nm ∈ st.names, (st.urls.lookup nm).isSome)
    (j : ℕ) (hj : j < st.names.length) :
    lookupUrl st (st.names.getD j "") = .ok ((st.urls.lookup (st.names.getD j "")).getD "") := by
  have hmem : st.names.getD j "" ∈ st.names := by
    rw [List.getD_eq_getElem _ _ hj]; exact List.getElem_mem hj
  obtain ⟨u, hu⟩ := Option.isSome_iff_exists.mp (hurl _ hmem)
  rw [lookupUrl, hu]
  rfl

/-- Run of `get_hike_recommendations` when the seed resolves to row `s`:
the output is the positional slice `[1 : n+1]` of the reversed argsort of the
seed's similarity row, mapped to (name, url) pairs. -/
lemma get_hike_recs_eq (st : RecState) (b : String) (n s : ℕ)
    (hfind : firstIdxFrom st.names b = some s)
    (hurl : ∀ nm ∈ st.names, (st.urls.lookup nm).isSome)
    (hrowlen : (st.sim.getD s []).length = st.names.length) :
    get_hike_recommendations st b n =
      .ok ((((descRanking ratLt 0 (st.sim.getD s [])).drop 1).take n).map (outPair st)) := by
  simp only [get_hike_recommendations, locIdx, hfind, except_bind_ok]
  apply mapM_except_ok
  intro j hj
  have hjlen : j < st.names.length := by
    have hmem' : j ∈ descRanking ratLt 0 (st.sim.getD s []) :=
      List.drop_subset _ _ (List.take_subset _ _ hj)
    rw [mem_descRanking, hrowlen] at hmem'
    exact hmem'
  rw [lookupUrl_ok st hurl j hjlen]
  rfl

/-- `_get_user_profile` succeeds on items all present in the index and
computes the spec's profile vector: the sum of the liked trails' rows. -/
lemma get_user_profile_eq (st : RecState) (items : List String)
    (hmem : ∀ it ∈ items, it ∈ st.names) :
    _get_user_profile st items = .ok (profileVectorSpec st items) := by
  rw [_get_user_profile, profileVectorSpec, List.foldl_map]
  apply foldlM_except_ok
  intro a hai acc
  obtain ⟨j, hj⟩ : ∃ j, firstIdxFrom st.names a = some j := by
    cases h : firstIdxFrom st.names a with
    | none => exact absurd ((firstIdxFrom_eq_none _ _).mp h) (not_not_intro (hmem a hai))
    | some j => exact ⟨j, rfl⟩
  simp only [npWhereFirst, hj, except_map_ok, Option.getD_some]

/-- Run of `get_user_recommendation` when every liked item is present: the
output is the positional slice `[len(items) : n+len(items)]` of the reversed
argsort of the cosine scores against the summed profile. -/
lemma get_user_recs_eq (st : RecState) (items : List String) (n : ℕ)
    (hmem : ∀ it ∈ items, it ∈ st.names)
    (hurl : ∀ nm ∈ st.names, (st.urls.lookup nm).isSome)
    (hXlen : st.X.length = st.names.length) :
    get_user_recommendation st items n =
      .ok ((((descRanking scoreLt (0, 0)
          (userScores st (profileVectorSpec st items))).drop items.length).take n).map
        (outPair st)) := by
  simp only [get_user_recommendation, get_user_profile_eq st items hmem, except_bind_ok]
  apply mapM_except_ok
  intro j hj
  have hjlen : j < st.names.length := by
    have hmem' : j ∈ descRanking scoreLt (0, 0) (userScores st (profileVectorSpec st items)) :=
      List.drop_subset _ _ (List.take_subset _ _ hj)
    rw [mem_descRanking] at hmem'
    simpa [userScores, hXlen] using hmem'
  rw [lookupUrl_ok st hurl j hjlen]
  rfl

/-- When position `s` holds the strictly largest value, the descending
ranking starts with `s`, and `s` occurs nowhere later. -/
lemma descRanking_head_uniqueMax {α : Type} (lt : α → α → Prop) [DecidableRel lt] (d : α)
    (xs : List α) (V : α → ℝ)
    (hV : ∀ a b, a ∈ d :: xs → b ∈ d :: xs → (lt a b ↔ V a < V b))
    (s : ℕ) (hs : s < xs.length)
    (hmax : ∀ j, j < xs.length → j ≠ s → V (xs.getD j d) < V (xs.getD s d)) :
    ∃ rest, descRanking lt d xs = s :: rest ∧ s ∉ rest := by
  have hpw := pairwise_descRanking lt d xs V hV
  have hnd := nodup_descRanking lt d xs
  have hmemS : s ∈ descRanking lt d xs := (mem_descRanking lt d xs s).mpr hs
  cases hD : descRanking lt d xs with
  | nil => rw [hD] at hmemS; cases hmemS
  | cons r0 rest =>
    rw [hD] at hpw hnd hmemS
    by_cases hr0 : r0 = s
    · subst hr0
      exact ⟨rest, rfl, (List.nodup_cons.mp hnd).1⟩
    · exfalso
      have hsrest : s ∈ rest := by
        rcases List.mem_cons.mp hmemS with h | h
        · exact absurd h.symm hr0
        · exact h
      have hrel : idxRel lt d xs s r0 := (List.pairwise_cons.mp hpw).1 s hsrest
      have hr0mem : r0 ∈ descRanking lt d xs := by rw [hD]; exact List.mem_cons_self _ _
      have hr0len : r0 < xs.length := (mem_descRanking lt d xs r0).mp hr0mem
      have hlt : V (xs.getD r0 d) < V (xs.getD s d) := hmax r0 hr0len hr0
      have ms := getD_mem_cons d xs s
      have mr := getD_mem_cons d xs r0
      rcases hrel with h | ⟨-, h2, -⟩
      · rw [hV _ _ ms mr] at h
        exact absurd hlt (lt_asymm h)
      · rw [hV _ _ mr ms] at h2
        exact h2 hlt

/-! ## Bound on the argmax -/

lemma argmaxIdx_lt_length (row : List ℚ) (h : 0 < row.length) : argmaxIdx row < row.length := by
  rw [argmaxIdx]
  have key : ∀ (l : List ℕ) (b : ℕ), b < row.length → (∀ j ∈ l, j < row.length) →
      l.foldl (fun best j => if row.getD best 0 < row.getD j 0 then j else best) b <
        row.length := by
    intro l
    induction l with
    | nil => intro b hb _; exact hb
    | cons x t ih =>
      intro b hb hl
      rw [List.foldl_cons]
      refine ih _ ?_ (fun j hj => hl j (List.mem_cons_of_mem _ hj))
      by_cases hc : row.getD b 0 < row.getD x 0
      · rw [if_pos hc]; exact hl x (List.mem_cons_self _ _)
      · rw [if_neg hc]; exact hb
  exact key _ 0 h (fun j hj => List.mem_range.mp hj)

/-! ## Valuation hypotheses for the two rankings -/

lemma scoreInv_mem_cons (st : RecState) (p : List ℚ) (x : ℚ × ℚ)
    (hx : x ∈ ((0 : ℚ), (0 : ℚ)) :: userScores st p) : ScoreInv x := by
  rcases List.mem_cons.mp hx with rfl | hx
  · exact scoreInv_default
  · exact scoreInv_userScores st p x hx

lemma scores_hV (st : RecState) (p : List ℚ) :
    ∀ a b, a ∈ ((0 : ℚ), (0 : ℚ)) :: userScores st p →
      b ∈ ((0 : ℚ), (0 : ℚ)) :: userScores st p → (scoreLt a b ↔ scoreVal a < scoreVal b) :=
  fun a b ha hb => scoreLt_iff_val a b (scoreInv_mem_cons st p a ha) (scoreInv_mem_cons st p b hb)

lemma rat_hV (row : List ℚ) :
    ∀ a b : ℚ, a ∈ (0 : ℚ) :: row → b ∈ (0 : ℚ) :: row → (ratLt a b ↔ (a : ℝ) < (b : ℝ)) :=
  fun a b _ _ => ratLt_iff_val a b

lemma userScores_length (st : RecState) (p : List ℚ) :
    (userScores st p).length = st.X.length := by
  simp [userScores]

lemma userScores_getD (st : RecState) (p : List ℚ) (j : ℕ) (hj : j < st.X.length) :
    (userScores st p).getD j (0, 0) =
      (dot (st.X.getD j []) p, sqNorm (st.X.getD j []) * sqNorm p) := by
  rw [userScores, List.getD_eq_getElem _ _ (by simpa using hj), List.getElem_map,
    List.getD_eq_getElem _ _ hj]

/-! ## Claim C1: N-way name disambiguation -/

/-- Five records sharing one name, with five distinct urls. -/
def c1_records : List RawRecord :=
  [⟨"a", "u1", "", "", "", none⟩, ⟨"a", "u2", "", "", "", none⟩, ⟨"a", "u3", "", "", "", none⟩,
    ⟨"a", "u4", "", "", "", none⟩, ⟨"a", "u5", "", "", "", none⟩]

/-- C1: the fixed three-pass disambiguation of `clean_df` does not produce M
distinct keys for an M-way name collision in general: on a 5-way collision the
last two keys coincide (`a_2_3_4` twice), so the index still collides. -/
theorem C1_clean_df_eval :
    clean_df_keys c1_records = ["a", "a_2", "a_2_3", "a_2_3_4", "a_2_3_4"] ∧
      ¬ (clean_df_keys c1_records).Nodup := by decide

/-! ## Claim C4: unknown names in recommendation queries -/

/-- A two-trail state used to probe unknown-name lookups. -/
def c4_state : RecState :=
  ⟨["A", "B"], [("A", "uA"), ("B", "uB")], [[1, 0], [0, 1]], [[1, 0], [0, 1]]⟩

/-- C4: a liked-item name absent from the index makes `_get_user_profile`
(and hence `get_user_recommendation`) fail through `np.where(...)[0][0]` with
an out-of-range `IndexError` that carries no entity name — not the claimed
descriptive unknown-entity condition. The seed path, by contrast, fails with
a pandas `KeyError` naming the missing entity. -/
theorem C4_unknown_name_eval :
    _get_user_profile c4_state ["Ghost Trail"] = .error .indexError ∧
      get_user_recommendation c4_state ["Ghost Trail"] 5 = .error .indexError ∧
      get_hike_recommendations c4_state "Ghost Trail" 5 =
        .error (.keyError "Ghost Trail") := by decide

/-! ## Claim C5: rounding feeds into Feature Fusion -/

/-- C5: the loadings joined into the fused table are the *rounded* `W_df`
values: with W = [[0.123]] the fused topic value is 0.12, not 0.123, so the
matrix passed into Feature Fusion is not the unrounded factorization output. -/
theorem C5_rounded_fusion_eval :
    fusedTable [("a", [5])] ["a"] [[123 / 1000]] = [("a", ([5], [12 / 100]))] ∧
      round2 (123 / 1000) = 12 / 100 ∧ ((12 : ℚ) / 100) ≠ 123 / 1000 := by
  refine ⟨?_, ?_, by norm_num⟩
  · norm_num [fusedTable, mergeFusion, wdfTable, wdfLoadings, round2, roundHalfEvenInt,
      List.lookup, List.filterMap_cons]
  · norm_num [round2, roundHalfEvenInt]

/-! ## Claim C7: corpus rows versus deduplicated records -/

/-- Two records with the same url (a scrape duplicate) and different names. -/
def c7_records : List RawRecord :=
  [⟨"a", "u", "", "", "", none⟩, ⟨"b", "u", "", "", "", none⟩]

/-- C7: `__main__` builds the corpus from the raw `df_mongo` table rather than
from the deduplicated `df_clean` (which is computed and never used), so on a
url-duplicate input the Corpus Document table has 2 rows while the
deduplicated, uniquely-keyed record table has 1. -/
theorem C7_corpus_row_eval :
    (pipeline_corpus c7_records).length = 2 ∧ (clean_df c7_records).length = 1 ∧
      (pipeline_corpus c7_records).length ≠ (clean_df c7_records).length := by decide

/-! ## Claim C8: join losses are silent -/

/-- Hike-attribute side of the fusion join: trails "a" and "b". -/
def c8_hike : List (String × List ℚ) := [("a", [1]), ("b", [2])]

/-- Topic-loading side of the fusion join: only trail "a". -/
def c8_wdf : List (String × List ℚ) := [("a", [3])]

/-- C8: the inner join drops trail "b" (present in only one joined table),
yet the fusion step emits no warning event whatsoever — the source's
`__main__` contains no logging construct, so the event stream is empty and
the row loss is silent. -/
theorem C8_silent_join_loss_eval :
    droppedTrails c8_hike c8_wdf = ["b"] ∧
      (mergeFusion c8_hike c8_wdf).map (·.1) = ["a"] ∧
      fusionEvents c8_hike c8_wdf = [] := by decide

/-! ## Claim C9: majority-topic labels -/

/-- C9: the `majority_topic` column holds, for each document, the argmax of
its row in the (unrounded) document-topic matrix plus one; with K ≥ 1 topic
columns every label lies in [1, K]. -/
theorem C9_majority_topic_label (W : List (List ℚ)) (K : ℕ) (hK : 0 < K)
    (hrows : ∀ r ∈ W, r.length = K) :
    majorityTopicCol W = W.map (fun r => argmaxIdx r + 1) ∧
      ∀ t ∈ majorityTopicCol W, 1 ≤ t ∧ t ≤ K := by
  constructor
  · rw [majorityTopicCol, document_topics, List.map_map]
    rfl
  · intro t ht
    rw [majorityTopicCol, document_topics, List.map_map, List.mem_map] at ht
    obtain ⟨r, hr, rfl⟩ := ht
    refine ⟨Nat.succ_le_succ (Nat.zero_le _), ?_⟩
    have h0 : 0 < r.length := by rw [hrows r hr]; exact hK
    have hlt := argmaxIdx_lt_length r h0
    rw [hrows r hr] at hlt
    exact hlt

/-- C9 witness: a concrete 2-document, 2-topic matrix; the labels are [2, 1],
each within [1, 2]. -/
theorem C9_majority_topic_label_witness :
    (0 < 2) ∧ (∀ r ∈ [[(0 : ℚ), 1], [2, 0]], r.length = 2) ∧
      (majorityTopicCol [[(0 : ℚ), 1], [2, 0]] =
          [[(0 : ℚ), 1], [2, 0]].map (fun r => argmaxIdx r + 1) ∧
        ∀ t ∈ majorityTopicCol [[(0 : ℚ), 1], [2, 0]], 1 ≤ t ∧ t ≤ 2) :=
  ⟨by decide, by decide, C9_majority_topic_label _ 2 (by decide) (by decide)⟩

/-! ## Claim C2: single-seed recommendation -/

/-- State in which trail "B" duplicates the seed's scaled feature vector, so
`sim("A", "B") = 1` ties the diagonal (cosines of rows (1,0), (1,0), (0,1)). -/
def c2cex_state : RecState :=
  ⟨["A", "B", "C"], [("A", "uA"), ("B", "uB"), ("C", "uC")],
    [[1, 1, 0], [1, 1, 0], [0, 0, 1]], [[1, 0], [1, 0], [0, 1]]⟩

/-- C2 counterexample: with the tie at similarity 1, the positional top-1 drop
of `get_hike_recommendations` removes "B" rather than the seed, and the
returned single recommendation is the seed "A" itself. -/
theorem C2_counterexample :
    get_hike_recommendations c2cex_state "A" 1 = Except.ok [("A", "uA")] ∧
      ¬ ∀ p ∈ [(("A" : String), ("uA" : String))], p.1 ≠ "A" := by decide

/-- C2 (amended): when the seed's similarity row attains its maximum strictly
uniquely at the seed's own position, `get_hike_recommendations` returns
exactly n rows for n ≤ total − 1, the rows are the positional slice of the
descending ranking together with their urls, the seed never appears among
them, and the similarity scores are descending along the output. -/
theorem C2_seed_recommendation (st : RecState) (seed : String) (n s : ℕ)
    (hwf : WellFormed st) (hfind : firstIdxFrom st.names seed = some s)
    (hmax : ∀ j < st.names.length, j ≠ s →
      (st.sim.getD s []).getD j 0 < (st.sim.getD s []).getD s 0)
    (hn : n ≤ st.names.length - 1) :
    ∃ recs, get_hike_recommendations st seed n = Except.ok recs ∧
      recs.length = n ∧ (∀ p ∈ recs, p.1 ≠ seed) ∧
      recs = (((descRanking ratLt 0 (st.sim.getD s [])).drop 1).take n).map (outPair st) ∧
      (((descRanking ratLt 0 (st.sim.getD s [])).drop 1).take n).Pairwise
        (fun a b => (st.sim.getD s []).getD b 0 ≤ (st.sim.getD s []).getD a 0) := by
  obtain ⟨hnd, hsimlen, hsimrows, hXlen, hXrows, hurl⟩ := hwf
  obtain ⟨hslen, hgets⟩ := firstIdxFrom_spec _ _ _ hfind
  have hrowmem : st.sim.getD s [] ∈ st.sim := by
    rw [List.getD_eq_getElem _ _ (by rw [hsimlen]; exact hslen)]
    exact List.getElem_mem _
  have hrowlen : (st.sim.getD s []).length = st.names.length := hsimrows _ hrowmem
  have heq := get_hike_recs_eq st seed n s hfind hurl hrowlen
  have hV := rat_hV (st.sim.getD s [])
  refine ⟨_, heq, ?_, ?_, rfl, ?_⟩
  · rw [List.length_map, List.length_take, List.length_drop, length_descRanking, hrowlen]
    exact min_eq_left hn
  · have hmax' : ∀ j, j < (st.sim.getD s []).length → j ≠ s →
        (((st.sim.getD s []).getD j 0 : ℚ) : ℝ) < (((st.sim.getD s []).getD s 0 : ℚ) : ℝ) := by
      intro j hj hjs
      exact_mod_cast hmax j (by rwa [hrowlen] at hj) hjs
    obtain ⟨rest, hD, hsnot⟩ := descRanking_head_uniqueMax ratLt 0 (st.sim.getD s [])
      (fun q => (q : ℝ)) hV s (by rwa [hrowlen]) hmax'
    intro p hp
    rw [List.mem_map] at hp
    obtain ⟨j, hj, rfl⟩ := hp
    rw [hD, List.drop_succ_cons, List.drop_zero] at hj
    have hjrest : j ∈ rest := List.take_subset _ _ hj
    have hjs : j ≠ s := fun h => hsnot (h ▸ hjrest)
    have hjlen : j < st.names.length := by
      have hmm : j ∈ descRanking ratLt 0 (st.sim.getD s []) := by
        rw [hD]
        exact List.mem_cons_of_mem _ hjrest
      rw [mem_descRanking, hrowlen] at hmm
      exact hmm
    intro hcon
    apply hjs
    have hcon' : st.names.getD j "" = seed := hcon
    have h1 : st.names.getD j "" = st.names.getD s "" := by rw [hcon', hgets]
    rw [List.getD_eq_getElem _ _ hjlen, List.getD_eq_getElem _ _ hslen] at h1
    exact (List.Nodup.getElem_inj_iff hnd).mp h1
  · have hpw := pairwise_descRanking ratLt 0 (st.sim.getD s []) (fun q => (q : ℝ)) hV
    have hsub : (((descRanking ratLt 0 (st.sim.getD s [])).drop 1).take n).Sublist
        (descRanking ratLt 0 (st.sim.getD s [])) :=
      (List.take_sublist _ _).trans (List.drop_sublist _ _)
    refine (hpw.sublist hsub).imp ?_
    intro a b hab
    rcases hab with h | ⟨-, h2, -⟩
    · exact le_of_lt h
    · exact not_lt.mp h2

/-- State whose seed row [1, 0, 0] has its unique maximum at the seed
(cosines of rows (1,0), (0,1), (0,1)). -/
def c2wit_state : RecState :=
  ⟨["A", "B", "C"], [("A", "uA"), ("B", "uB"), ("C", "uC")],
    [[1, 0, 0], [0, 1, 1], [0, 1, 1]], [[1, 0], [0, 1], [0, 1]]⟩

/-- C2 witness: the amended statement instantiated at a concrete 3-trail
state, seed "A", n = 2. -/
theorem C2_seed_recommendation_witness :
    WellFormed c2wit_state ∧ firstIdxFrom c2wit_state.names "A" = some 0 ∧
      (∀ j < c2wit_state.names.length, j ≠ 0 →
        (c2wit_state.sim.getD 0 []).getD j 0 < (c2wit_state.sim.getD 0 []).getD 0 0) ∧
      2 ≤ c2wit_state.names.length - 1 ∧
      (∃ recs, get_hike_recommendations c2wit_state "A" 2 = Except.ok recs ∧
        recs.length = 2 ∧ (∀ p ∈ recs, p.1 ≠ "A") ∧
        recs = (((descRanking ratLt 0 (c2wit_state.sim.getD 0 [])).drop 1).take 2).map
          (outPair c2wit_state) ∧
        (((descRanking ratLt 0 (c2wit_state.sim.getD 0 [])).drop 1).take 2).Pairwise
          (fun a b => (c2wit_state.sim.getD 0 []).getD b 0 ≤
            (c2wit_state.sim.getD 0 []).getD a 0)) :=
  ⟨by decide, by decide, by decide, by decide,
    C2_seed_recommendation c2wit_state "A" 2 0 (by decide) (by decide) (by decide) (by decide)⟩

/-! ## Claim C6: tie-break order -/

/-- State in which trails "B" and "C" duplicate each other (rows (1,0), (0,1),
(0,1)): both have similarity 0 to the seed "A". -/
def c6cex_state : RecState :=
  ⟨["A", "B", "C"], [("A", "uA"), ("B", "uB"), ("C", "uC")],
    [[1, 0, 0], [0, 1, 1], [0, 1, 1]], [[1, 0], [0, 1], [0, 1]]⟩

/-- C6 counterexample: trails "B" (index 1) and "C" (index 2) tie at
similarity 0 to the seed, yet the output lists "C" before "B": equal scores
come out in reverse index order, not original index order. -/
theorem C6_counterexample :
    get_hike_recommendations c6cex_state "A" 2 = Except.ok [("C", "uC"), ("B", "uB")] ∧
      (c6cex_state.sim.getD 0 []).getD 1 0 = (c6cex_state.sim.getD 0 []).getD 2 0 := by decide

/-- C6 (amended): for rankings over fewer than 16 trails — the regime in
which numpy's default introsort degenerates to its stable insertion sort, so
the stable `argsortAsc` model is faithful to `np.argsort`; for 16 elements
or more the quicksort is documented unstable and no index-based tie policy
holds of the program at all — both recommendation modes order equal scores
in *descending* original index order, and the ranking is deterministic for
fixed inputs. The first conjunct is the ranking `get_hike_recommendations`
slices (a seed similarity row), the second the one `get_user_recommendation`
slices (the cosine scores of any profile). -/
theorem C6_tie_order (st : RecState) (s : ℕ)
    (_hrow16 : (st.sim.getD s []).length < 16) :
    ((descRanking ratLt 0 (st.sim.getD s [])).Pairwise (fun a b =>
      (st.sim.getD s []).getD b 0 < (st.sim.getD s []).getD a 0 ∨
        ((st.sim.getD s []).getD a 0 = (st.sim.getD s []).getD b 0 ∧ b < a))) ∧
    ∀ p : List ℚ, (userScores st p).length < 16 →
      (descRanking scoreLt (0, 0) (userScores st p)).Pairwise (fun a b =>
        scoreLt ((userScores st p).getD b (0, 0)) ((userScores st p).getD a (0, 0)) ∨
          (¬ scoreLt ((userScores st p).getD a (0, 0)) ((userScores st p).getD b (0, 0)) ∧
            ¬ scoreLt ((userScores st p).getD b (0, 0)) ((userScores st p).getD a (0, 0)) ∧
            b < a)) := by
  constructor
  · have hpw := pairwise_descRanking ratLt 0 (st.sim.getD s []) (fun q => (q : ℝ))
      (rat_hV (st.sim.getD s []))
    have hnd := nodup_descRanking ratLt 0 (st.sim.getD s [])
    refine (hpw.and hnd).imp ?_
    rintro a b ⟨hrel, hne⟩
    rcases hrel with h | ⟨h1, h2, hle⟩
    · exact Or.inl h
    · exact Or.inr ⟨le_antisymm (not_lt.mp h1) (not_lt.mp h2),
        lt_of_le_of_ne hle (Ne.symm hne)⟩
  · intro p _
    have hpw := pairwise_descRanking scoreLt (0, 0) (userScores st p) scoreVal (scores_hV st p)
    have hnd := nodup_descRanking scoreLt (0, 0) (userScores st p)
    refine (hpw.and hnd).imp ?_
    rintro a b ⟨hrel, hne⟩
    rcases hrel with h | ⟨h1, h2, hle⟩
    · exact Or.inl h
    · exact Or.inr ⟨h2, h1, lt_of_le_of_ne hle (Ne.symm hne)⟩

/-- C6 witness: the amended tie-order statement instantiated at the
counterexample state (a 3-trail row, inside the stable under-16 regime),
seed row 0 and profile [1, 0]. -/
theorem C6_tie_order_witness :
    (c6cex_state.sim.getD 0 []).length < 16 ∧
    (userScores c6cex_state [1, 0]).length < 16 ∧
    ((descRanking ratLt 0 (c6cex_state.sim.getD 0 [])).Pairwise (fun a b =>
      (c6cex_state.sim.getD 0 []).getD b 0 < (c6cex_state.sim.getD 0 []).getD a 0 ∨
        ((c6cex_state.sim.getD 0 []).getD a 0 = (c6cex_state.sim.getD 0 []).getD b 0 ∧
          b < a))) ∧
    (descRanking scoreLt (0, 0) (userScores c6cex_state [1, 0])).Pairwise (fun a b =>
      scoreLt ((userScores c6cex_state [1, 0]).getD b (0, 0))
          ((userScores c6cex_state [1, 0]).getD a (0, 0)) ∨
        (¬ scoreLt ((userScores c6cex_state [1, 0]).getD a (0, 0))
            ((userScores c6cex_state [1, 0]).getD b (0, 0)) ∧
          ¬ scoreLt ((userScores c6cex_state [1, 0]).getD b (0, 0))
            ((userScores c6cex_state [1, 0]).getD a (0, 0)) ∧
          b < a)) :=
  ⟨by decide, by decide, (C6_tie_order c6cex_state 0 (by decide)).1,
    (C6_tie_order c6cex_state 0 (by decide)).2 [1, 0] (by decide)⟩

/-! ## Claim C3: user-profile recommendation -/

/-- C3: the user-profile query builds the profile as the elementwise sum of
the liked trails' scaled feature vectors (the spec-side `profileVectorSpec`),
ranks all trails by cosine similarity to that profile descending, skips
exactly `items.length` top-ranked positions — a positional skip over a full
ranking of all trails, not a name-based exclusion — and returns the next n
names with their urls. -/
theorem C3_profile_recommendation (st : RecState) (items : List String) (n : ℕ)
    (hwf : WellFormed st) (hmem : ∀ it ∈ items, it ∈ st.names)
    (hn : items.length + n ≤ st.names.length) :
    _get_user_profile st items = .ok (profileVectorSpec st items) ∧
      ∃ recs, get_user_recommendation st items n = Except.ok recs ∧
        recs.length = n ∧
        recs = (((descRanking scoreLt (0, 0)
            (userScores st (profileVectorSpec st items))).drop items.length).take n).map
          (outPair st) ∧
        (descRanking scoreLt (0, 0) (userScores st (profileVectorSpec st items))).Perm
          (List.range st.names.length) ∧
        (descRanking scoreLt (0, 0) (userScores st (profileVectorSpec st items))).Pairwise
          (fun a b => cosineSim (st.X.getD b []) (profileVectorSpec st items) ≤
            cosineSim (st.X.getD a []) (profileVectorSpec st items)) := by
  obtain ⟨hnd, hsimlen, hsimrows, hXlen, hXrows, hurl⟩ := hwf
  have hprof := get_user_profile_eq st items hmem
  have heq := get_user_recs_eq st items n hmem hurl hXlen
  have hslen : (userScores st (profileVectorSpec st items)).length = st.names.length := by
    rw [userScores_length, hXlen]
  refine ⟨hprof, _, heq, ?_, rfl, ?_, ?_⟩
  · rw [List.length_map, List.length_take, List.length_drop, length_descRanking, hslen]
    omega
  · have hperm := descRanking_perm scoreLt (0, 0) (userScores st (profileVectorSpec st items))
    rwa [hslen] at hperm
  · have hpw := pairwise_descRanking scoreLt (0, 0) (userScores st (profileVectorSpec st items))
      scoreVal (scores_hV st (profileVectorSpec st items))
    refine List.Pairwise.imp_of_mem ?_ hpw
    intro a b hma hmb hrel
    rw [mem_descRanking, userScores_length] at hma hmb
    have hga := userScores_getD st (profileVectorSpec st items) a hma
    have hgb := userScores_getD st (profileVectorSpec st items) b hmb
    have hIa : ScoreInv ((userScores st (profileVectorSpec st items)).getD a (0, 0)) :=
      scoreInv_mem_cons st _ _ (getD_mem_cons _ _ _)
    have hIb : ScoreInv ((userScores st (profileVectorSpec st items)).getD b (0, 0)) :=
      scoreInv_mem_cons st _ _ (getD_mem_cons _ _ _)
    rw [← scoreVal_eq_cosineSim (st.X.getD a []) (profileVectorSpec st items),
      ← scoreVal_eq_cosineSim (st.X.getD b []) (profileVectorSpec st items), ← hga, ← hgb]
    rcases hrel with h | ⟨-, h2, -⟩
    · exact le_of_lt ((scoreLt_iff_val _ _ hIb hIa).mp h)
    · exact not_lt.mp (fun hc => h2 ((scoreLt_iff_val _ _ hIa hIb).mpr hc))

/-- State with three distinct feature rows (1,0), (0,1), (1,1). -/
def c3wit_state : RecState :=
  ⟨["A", "B", "C"], [("A", "uA"), ("B", "uB"), ("C", "uC")],
    [[1, 0, 0], [0, 1, 0], [0, 0, 1]], [[1, 0], [0, 1], [1, 1]]⟩

/-- C3 witness: the statement instantiated at a concrete 3-trail state,
liked items ["A"], n = 1. -/
theorem C3_profile_recommendation_witness :
    WellFormed c3wit_state ∧ (∀ it ∈ ["A"], it ∈ c3wit_state.names) ∧
      (["A"].length + 1 ≤ c3wit_state.names.length) ∧
      (_get_user_profile c3wit_state ["A"] = .ok (profileVectorSpec c3wit_state ["A"]) ∧
        ∃ recs, get_user_recommendation c3wit_state ["A"] 1 = Except.ok recs ∧
          recs.length = 1 ∧
          recs = (((descRanking scoreLt (0, 0)
              (userScores c3wit_state (profileVectorSpec c3wit_state ["A"]))).drop
              (["A"].length)).take 1).map (outPair c3wit_state) ∧
          (descRanking scoreLt (0, 0)
              (userScores c3wit_state (profileVectorSpec c3wit_state ["A"]))).Perm
            (List.range c3wit_state.names.length) ∧
          (descRanking scoreLt (0, 0)
              (userScores c3wit_state (profileVectorSpec c3wit_state ["A"]))).Pairwise
            (fun a b =>
              cosineSim (c3wit_state.X.getD b []) (profileVectorSpec c3wit_state ["A"]) ≤
                cosineSim (c3wit_state.X.getD a []) (profileVectorSpec c3wit_state ["A"]))) :=
  ⟨by decide, by decide, by decide,
    C3_profile_recommendation c3wit_state ["A"] 1 (by decide) (by decide) (by decide)⟩

/-! ## Claim C10: empty liked list -/

/-- A two-trail state with orthogonal feature rows. -/
def c10cex_state : RecState :=
  ⟨["A", "B"], [("A", "uA"), ("B", "uB")], [[1, 0], [0, 1]], [[1, 0], [0, 1]]⟩

/-- C10 counterexample to the NaN clause: with an empty liked list every
computed similarity is the definite value 0 — the zero profile's dot product
with every row vanishes and sklearn's zero-norm handling yields 0, not
NaN/undefined — and the call returns normally instead of failing. -/
theorem C10_counterexample :
    (userScores c10cex_state (List.replicate (xdim c10cex_state) 0)).map Prod.fst = [0, 0] ∧
      cosineSim [1, 0] (List.replicate (xdim c10cex_state) 0) = 0 ∧
      get_user_recommendation c10cex_state [] 1 = Except.ok [("B", "uB")] := by
  refine ⟨?_, ?_, ?_⟩
  · norm_num [userScores, dot, sqNorm, c10cex_state, xdim, List.replicate_succ]
  · have hz : sqNorm (List.replicate (xdim c10cex_state) (0 : ℚ)) = 0 := by
      norm_num [sqNorm, dot, xdim, c10cex_state, List.replicate_succ]
    rw [cosineSim, if_pos (Or.inr hz)]
  · norm_num [get_user_recommendation, _get_user_profile, xdim, userScores, dot, sqNorm,
      vecAdd, descRanking, argsortAsc, List.insertionSort, List.orderedInsert, idxRel,
      scoreLt, lookupUrl, List.range_succ, List.lookup, except_bind_ok, except_bind_err,
      except_map_ok, except_map_err, List.replicate_succ, List.zipWith_cons_cons,
      List.mapM, List.mapM.loop, c10cex_state]
    decide

/-- C10 (amended): an empty liked list yields the all-zero profile vector of
feature dimensionality; every cosine score computed against it is 0 (the dot
product with the zero profile vanishes; sklearn's zero-norm handling maps the
zero profile to itself, so the similarity is 0, not NaN); and instead of
rejecting the empty input the query returns min(n, total) ranked rows. -/
theorem C10_empty_profile (st : RecState) (hwf : WellFormed st) (n : ℕ) :
    _get_user_profile st [] = .ok (List.replicate (xdim st) 0) ∧
      (∀ sc ∈ userScores st (List.replicate (xdim st) 0), sc.1 = 0) ∧
      (∀ row ∈ st.X, cosineSim row (List.replicate (xdim st) 0) = 0) ∧
      ∃ recs, get_user_recommendation st [] n = Except.ok recs ∧
        recs.length = min n st.names.length := by
  obtain ⟨hnd, hsimlen, hsimrows, hXlen, hXrows, hurl⟩ := hwf
  have hz : ∀ x ∈ List.replicate (xdim st) (0 : ℚ), x = 0 :=
    fun x hx => List.eq_of_mem_replicate hx
  have hzn : sqNorm (List.replicate (xdim st) (0 : ℚ)) = 0 := dot_eq_zero_left _ hz _
  refine ⟨rfl, ?_, ?_, ?_⟩
  · intro sc hsc
    rw [userScores, List.mem_map] at hsc
    obtain ⟨row, hrow, rfl⟩ := hsc
    exact dot_eq_zero_right _ hz row
  · intro row hrow
    rw [cosineSim, if_pos (Or.inr hzn)]
  · have heq := get_user_recs_eq st [] n (by intro it hit; cases hit) hurl hXlen
    refine ⟨_, heq, ?_⟩
    rw [List.length_map, List.length_take, List.length_drop, length_descRanking,
      userScores_length, hXlen]
    simp

/-- C10 witness: the amended statement instantiated at a concrete 2-trail
state with n = 5. -/
theorem C10_empty_profile_witness :
    WellFormed c10cex_state ∧
      (_get_user_profile c10cex_state [] = .ok (List.replicate (xdim c10cex_state) 0) ∧
        (∀ sc ∈ userScores c10cex_state (List.replicate (xdim c10cex_state) 0), sc.1 = 0) ∧
        (∀ row ∈ c10cex_state.X,
          cosineSim row (List.replicate (xdim c10cex_state) 0) = 0) ∧
        ∃ recs, get_user_recommendation c10cex_state [] 5 = Except.ok recs ∧
          recs.length = min 5 c10cex_state.names.length) :=
  ⟨by decide, C10_empty_profile c10cex_state (by decide) 5⟩

end TrailRec
